import Mathlib

/-!
Verification of the OGG last-page locator of `lofty/src/ogg/mod.rs`.

The module under study contains two pieces:

* `verify_signature`, a pure prefix check against a magic byte sequence;
* `find_last_page`, a chunked backward scan over a readable+seekable byte
  stream that looks for the 4-byte page marker `OggS`, validates candidates
  by header parsing, end-of-stream alignment and checksum recomputation, and
  falls back to a forward linear traversal when the backward scan concludes
  without accepting a candidate.

The byte stream (`Read + Seek` in the source) is embedded as a list of bytes
together with a cursor position and a set of unreadable offsets (modelling a
faulty medium); every read either returns bytes and advances the cursor, or
fails with an I/O error.  The page codec (`ogg_pager`'s `PageHeader::read`,
`Page::read`, `Page::gen_crc`, `content_size`, `checksum`) is an external
collaborator of this repository and is modelled from its specified interface.
Loops are given an explicit fuel parameter so that the (partial) source
functions become total Lean functions; running out of fuel is a distinct
observable outcome, which lets us reason about divergence.
-/

deriving instance DecidableEq for Except

namespace Lofty

/-- Errors of the embedded code: I/O failures of the underlying stream, and
decode (parse) failures. -/
inductive Err where
  | io : Err
  | decode : Err
deriving DecidableEq, Repr

/-- Modelled from the spec: the page-codec collaborator's page header is an
opaque structure exposing a declared content length (`content_size`) and a
stored checksum field (`checksum`).  The concrete field layout is owned by
the collaborator and is irrelevant to the locator. -/
structure PageHeader where
  content_size : Nat
  checksum : Nat
deriving DecidableEq, Repr

/-- Modelled from the spec: a full page is a header plus its payload bytes,
constructed transiently for checksum validation. -/
structure Page where
  header : PageHeader
  content : List Nat
deriving DecidableEq, Repr

/-- A readable + seekable byte source: the underlying bytes, a set of offsets
whose reads fail with an I/O error (a faulty medium), and the cursor. -/
structure Stream where
  data : List Nat
  bad : List Nat
  pos : Nat
deriving DecidableEq, Repr

/-- Checked sub-list extraction `l[a..b]`; `none` models the panic of an
out-of-range Rust slice index. -/
def listSlice (l : List Nat) (a b : Nat) : Option (List Nat) :=
  if a ≤ b ∧ b ≤ l.length then some ((l.drop a).take (b - a)) else none

/-- `read_exact` into a buffer of `n` bytes: succeeds iff all `n` offsets
starting at the cursor are within bounds and readable, advancing the cursor;
otherwise the read fails with an I/O error. -/
def Stream.readExact (s : Stream) (n : Nat) : Except Err (List Nat × Stream) :=
  if s.pos + n ≤ s.data.length ∧ ∀ k ∈ List.range n, s.pos + k ∉ s.bad
  then .ok ((s.data.drop s.pos).take n, ⟨s.data, s.bad, s.pos + n⟩)
  else .error .io

/-- Modelled from the spec: `read_header(stream) -> Result<Header>` of the
page-codec collaborator parses one page header at the cursor, advancing the
cursor past the header, and fails on malformed or insufficient bytes.  The
model uses a six-byte header: the 4-byte marker `OggS` (79,103,103,83),
one content-length byte and one checksum byte; a read failure is an I/O
error, a wrong marker is a decode error. -/
def PageHeader.read (s : Stream) : Except Err (PageHeader × Stream) :=
  match s.readExact 6 with
  | .error e => .error e
  | .ok (bytes, s1) =>
    if bytes.take 4 = [79, 103, 103, 83]
    then .ok (⟨bytes.getD 4 0, bytes.getD 5 0⟩, s1)
    else .error .decode

/-- Modelled from the spec: `read_full_page(stream) -> Result<Page>` parses a
header and then the declared number of payload bytes. -/
def Page.read (s : Stream) : Except Err (Page × Stream) :=
  match PageHeader.read s with
  | .error e => .error e
  | .ok (h, s1) =>
    match s1.readExact h.content_size with
    | .error e => .error e
    | .ok (content, s2) => .ok (⟨h, content⟩, s2)

/-- Modelled from the spec: the checksum function the collaborator recomputes
over a page's actual content bytes. -/
def crc32 (bytes : List Nat) : Nat := bytes.sum % 256

/-- Modelled from the spec: `page.gen_crc()` regenerates the page's checksum
field in place from its actual bytes. -/
def Page.gen_crc (p : Page) : Page :=
  { p with header := { p.header with checksum := crc32 p.content } }

/-- Result of running embedded fallible code: success, an error, an
out-of-bounds slice panic, or fuel exhaustion (divergence of the source
loop). -/
inductive Outcome (α : Type) where
  | ok : α → Outcome α
  | err : Err → Outcome α
  | panicked : Outcome α
  | noFuel : Outcome α
deriving DecidableEq, Repr

/-- `true` exactly on the panic outcome. -/
def Outcome.isPanic {α : Type} : Outcome α → Bool
  | .panicked => true
  | _ => false

/-- `verify_signature` from `lofty/src/ogg/mod.rs`: fail with a decode error
when the content is shorter than the signature or (short-circuit) its prefix
of the signature's length differs from the signature. -/
def verify_signature (content sig : List Nat) : Outcome Unit :=
  let sig_len := sig.length
  if content.length < sig_len then .err .decode
  else
    match listSlice content 0 sig_len with
    | none => .panicked
    | some pre => if pre ≠ sig then .err .decode else .ok ()

/-- The 8 KiB chunk size of the backward scan. -/
def CHUNK_SIZE : Nat := 8192

/-- Outcome of evaluating one candidate marker position: a header to return,
or a slice panic. -/
inductive Hit where
  | found : PageHeader → Hit
  | panicked : Hit
deriving DecidableEq, Repr

/-- Outcome of scanning one chunk. -/
inductive Inner where
  | hit : Hit → Inner
  | exhausted : Inner
deriving DecidableEq, Repr

/-- Candidate validation of `find_last_page` (lines 81–112 of the source),
for the candidate whose marker starts at absolute offset `p`: seek to `p` and
try to parse a header (a failure discards the candidate); compute the page's
nominal end offset from the cursor movement and the declared content length;
accept immediately when it equals `file_len`; otherwise re-seek, read the
full page, regenerate its checksum and accept exactly when it matches the
stored value. -/
def afterMarker (d bad : List Nat) (flen p : Nat) : Option Hit :=
  match PageHeader.read ⟨d, bad, p⟩ with
  | .error _ => none
  | .ok (header, s1) =>
    let header_len := s1.pos - p
    let page_end := p + header_len + header.content_size
    if page_end = flen then some (.found header)
    else
      match Page.read ⟨d, bad, p⟩ with
      | .ok (page, _) =>
        let orig := page.header.checksum
        let page2 := page.gen_crc
        if page2.header.checksum = orig then some (.found page2.header) else none
      | .error _ => none

/-- One step of the in-chunk backward scan (lines 77–113): at chunk index
`i`, check for the final marker byte `S`, then (short-circuit, only when
`3 ≤ i`) for the `Ogg` prefix just before it, and on a match validate the
candidate starting at absolute offset `ss + (i - 3)`.  `none` means the scan
continues with the next smaller index. -/
def processIndex (d bad : List Nat) (flen ss : Nat) (chunk : List Nat) (i : Nat) :
    Option Hit :=
  match chunk[i]? with
  | none => some .panicked
  | some b =>
    if b = 83 then
      if 3 ≤ i then
        match listSlice chunk (i - 3) i with
        | none => some .panicked
        | some pre =>
          if pre = [79, 103, 103] then afterMarker d bad flen (ss + (i - 3))
          else none
      else none
    else none

/-- The in-chunk loop `for i in (0..chunk.len()).rev()`, started at index
`i` and scanning down to index 0. -/
def scanFrom (d bad : List Nat) (flen ss : Nat) (chunk : List Nat) : Nat → Inner
  | 0 =>
    match processIndex d bad flen ss chunk 0 with
    | some h => .hit h
    | none => .exhausted
  | i + 1 =>
    match processIndex d bad flen ss chunk (i + 1) with
    | some h => .hit h
    | none => scanFrom d bad flen ss chunk i

/-- Scan a whole chunk backwards (empty chunks have no iterations). -/
def scanChunk (d bad : List Nat) (flen ss : Nat) (chunk : List Nat) : Inner :=
  match chunk.length with
  | 0 => .exhausted
  | n + 1 => scanFrom d bad flen ss chunk n

/-- Result of the backward chunked scan: an accepted header, falling through
to the forward fallback, a propagated I/O error, a panic, or running out of
fuel. -/
inductive BackRes where
  | accepted : PageHeader → BackRes
  | fallthrough : BackRes
  | failed : Err → BackRes
  | panicked : BackRes
  | noFuel : BackRes
deriving DecidableEq, Repr

/-- The backward chunked scan of `find_last_page` (lines 63–122): while
`current_pos > start_pos`, read the chunk of `min CHUNK_SIZE
(current_pos - start_pos)` bytes ending at `current_pos` (the slice
`buffer[..size]` of the reusable `CHUNK_SIZE` buffer is bounds-checked),
scan it backwards, and on no acceptance either stop when the chunk started
at an absolute offset below 3 or move `current_pos` to `search_start + 3`
(the 3-byte overlap). -/
def backLoop (d bad : List Nat) (sp flen : Nat) : Nat → Nat → BackRes
  | 0, _ => .noFuel
  | f + 1, cp =>
    if cp ≤ sp then .fallthrough
    else if min CHUNK_SIZE (cp - sp) ≤ CHUNK_SIZE then
      match Stream.readExact ⟨d, bad, cp - min CHUNK_SIZE (cp - sp)⟩
          (min CHUNK_SIZE (cp - sp)) with
      | .error e => .failed e
      | .ok (chunk, _) =>
        match scanChunk d bad flen (cp - min CHUNK_SIZE (cp - sp)) chunk with
        | .hit (.found h) => .accepted h
        | .hit .panicked => .panicked
        | .exhausted =>
          if cp - min CHUNK_SIZE (cp - sp) < 3 then .fallthrough
          else backLoop d bad sp flen f (cp - min CHUNK_SIZE (cp - sp) + 3)
    else .panicked

/-- The forward-fallback loop of `find_last_page` (lines 131–134): parse a
header at the cursor; on failure return the most recently parsed header,
otherwise remember the new header, skip its declared content and repeat. -/
def fwdLoop (d bad : List Nat) : Nat → Nat → PageHeader → Outcome PageHeader
  | 0, _, _ => .noFuel
  | f + 1, pos, last =>
    match PageHeader.read ⟨d, bad, pos⟩ with
    | .error _ => .ok last
    | .ok (h, s1) => fwdLoop d bad f (s1.pos + h.content_size) h

/-- `find_last_page` from `lofty/src/ogg/mod.rs`: record the start position
and the stream length, run the backward chunked scan from the end, and on
fall-through seek back to the start position and run the forward fallback,
whose very first header parse failure is propagated as the overall error. -/
def find_last_page (fuel : Nat) (s : Stream) : Outcome PageHeader :=
  match backLoop s.data s.bad s.pos s.data.length fuel s.data.length with
  | .accepted h => .ok h
  | .failed e => .err e
  | .panicked => .panicked
  | .noFuel => .noFuel
  | .fallthrough =>
    match PageHeader.read ⟨s.data, s.bad, s.pos⟩ with
    | .error e => .err e
    | .ok (h, s1) => fwdLoop s.data s.bad fuel (s1.pos + h.content_size) h

/-- Specification-side candidate evaluation at an absolute offset `p` of the
stream: the marker check performed on the underlying bytes themselves
(final byte `S` at `p + 3`, prefix `Ogg` at `p`), followed by the same
candidate validation the scan performs.  Used to state which pages are
valid independently of the chunking. -/
def candidateAt (d bad : List Nat) (flen p : Nat) : Option Hit :=
  if d[p + 3]? = some 83 ∧ listSlice d p (p + 3) = some [79, 103, 103]
  then afterMarker d bad flen p
  else none

/-- One step of the specification-side reference strategy: at offset `p`,
remember the page's header when `p` is in the region and holds a valid page,
else keep the accumulator. -/
def refStep (d : List Nat) (sp : Nat) (acc : Option PageHeader) (p : Nat) :
    Option PageHeader :=
  if sp ≤ p then
    match candidateAt d [] d.length p with
    | some (.found h) => some h
    | _ => acc
  else acc

/-- Specification-side reference strategy (design note of the spec): a single
full-stream forward scan from `sp` that always remembers the last (greatest
offset) valid page, returning its header, or a decode error when no valid
page exists. -/
def refFind (d : List Nat) (sp : Nat) : Except Err PageHeader :=
  match (List.range d.length).foldl (refStep d sp) none with
  | some h => .ok h
  | none => .error .decode

/-! ### Basic lemmas about the embedded stream operations -/

theorem readExact_ok {s : Stream} {n : Nat} {bs : List Nat} {s1 : Stream}
    (h : s.readExact n = .ok (bs, s1)) :
    bs = (s.data.drop s.pos).take n ∧ s1 = ⟨s.data, s.bad, s.pos + n⟩ ∧
      s.pos + n ≤ s.data.length ∧ ∀ k ∈ List.range n, s.pos + k ∉ s.bad := by
  unfold Stream.readExact at h
  split at h
  · rename_i hcond
    injection h with h'
    injection h' with h1 h2
    exact ⟨h1.symm, h2.symm, hcond.1, hcond.2⟩
  · cases h

theorem readExact_ok_of {s : Stream} {n : Nat}
    (hlen : s.pos + n ≤ s.data.length) (hbad : ∀ k ∈ List.range n, s.pos + k ∉ s.bad) :
    s.readExact n = .ok ((s.data.drop s.pos).take n, ⟨s.data, s.bad, s.pos + n⟩) := by
  unfold Stream.readExact
  rw [if_pos ⟨hlen, hbad⟩]

theorem pageHeader_read_ok_dest {s : Stream} {h : PageHeader} {s1 : Stream}
    (hr : PageHeader.read s = .ok (h, s1)) :
    s1 = ⟨s.data, s.bad, s.pos + 6⟩ ∧ s.pos + 6 ≤ s.data.length := by
  unfold PageHeader.read at hr
  split at hr
  next e heq => cases hr
  next bytes s1' heq =>
    obtain ⟨hbs, hs1, hlen, hbad⟩ := readExact_ok heq
    split at hr
    next hm =>
      injection hr with hr'
      injection hr' with hA hB
      exact ⟨by rw [← hB]; exact hs1, hlen⟩
    next hm => cases hr

theorem page_read_ok_dest {s : Stream} {pg : Page} {s2 : Stream}
    (hr : Page.read s = .ok (pg, s2)) :
    PageHeader.read s = .ok (pg.header, ⟨s.data, s.bad, s.pos + 6⟩) ∧
      s.pos + 6 + pg.header.content_size ≤ s.data.length := by
  unfold Page.read at hr
  split at hr
  next e heq => cases hr
  next h s1 heq =>
    split at hr
    next e heq2 => cases hr
    next content s2' heq2 =>
      injection hr with hr'
      injection hr' with hA hB
      obtain ⟨hs1, hlen6⟩ := pageHeader_read_ok_dest heq
      obtain ⟨hbs, hs2, hlen, hbad⟩ := readExact_ok heq2
      have hh : pg.header = h := by rw [← hA]
      subst hs1
      refine ⟨by rw [heq, hh], ?_⟩
      rw [hh]
      simpa using hlen

/-! ### C9: the signature verifier -/

/-- C9 (confirmed): `verify_signature(content, sig)` fails with a decode
error if and only if the content is shorter than the signature or its prefix
of the signature's length differs from the signature in at least one byte,
succeeds (with unit) otherwise, and for the empty signature it succeeds on
every content slice, including the empty one. -/
theorem c9_verify_signature (c s : List Nat) :
    (verify_signature c s = .err .decode ↔
      (c.length < s.length ∨ c.take s.length ≠ s))
    ∧ (verify_signature c s = .ok () ↔
      (s.length ≤ c.length ∧ c.take s.length = s))
    ∧ verify_signature c [] = .ok () := by
  have hmain : ∀ c' s' : List Nat,
      (verify_signature c' s' = .err .decode ↔
        (c'.length < s'.length ∨ c'.take s'.length ≠ s'))
      ∧ (verify_signature c' s' = .ok () ↔
        (s'.length ≤ c'.length ∧ c'.take s'.length = s')) := by
    intro c' s'
    by_cases hlt : c'.length < s'.length
    · have hv : verify_signature c' s' = .err .decode := by
        unfold verify_signature
        rw [if_pos hlt]
      rw [hv]
      constructor
      · simp [hlt]
      · simp
        omega
    · have hv : verify_signature c' s' =
          if c'.take s'.length ≠ s' then .err .decode else .ok () := by
        unfold verify_signature
        rw [if_neg hlt]
        unfold listSlice
        rw [if_pos ⟨Nat.zero_le _, Nat.le_of_not_lt hlt⟩]
        simp
      rw [hv]
      by_cases heq : c'.take s'.length = s'
      · rw [if_neg (by simp [heq])]
        simp [heq, Nat.le_of_not_lt hlt]
      · rw [if_pos (by simp [heq])]
        simp [heq, hlt]
  refine ⟨(hmain c s).1, (hmain c s).2, ?_⟩
  exact (hmain c []).2.mpr (by simp)

/-! ### Counterexamples on small concrete streams -/

/-- C1 (counterexample): on the 6-byte stream `OggS, 200, 7` (a parseable
header whose declared content extends 200 bytes past the end of the file),
`find_last_page` succeeds via the forward fallback and returns that header,
although no offset in `[0, 6)` holds a page that ends at `file_len` or whose
recomputed checksum matches (the spec-side candidate evaluation rejects every
position), and the returned page's start + header length + content length,
`0 + 6 + 200`, exceeds `file_len = 6`. -/
theorem c1_counterexample :
    find_last_page 10 ⟨[79, 103, 103, 83, 200, 7], [], 0⟩ = .ok ⟨200, 7⟩
    ∧ ((List.range 6).all fun p =>
        (candidateAt [79, 103, 103, 83, 200, 7] [] 6 p).isNone) = true
    ∧ 6 < 0 + 6 + (200 : Nat) := by
  refine ⟨by decide, by decide, by decide⟩

/-- C6 (counterexample): on the 12-byte stream consisting of a checksum-valid
page at offset 0 followed by a bare marker at offset 8, the backward scan's
header read at offset 8 fails with an I/O error (the read runs past the end
of the stream), yet that error is locally swallowed — the candidate is
discarded (`processIndex` yields `none`) and the search continues and
succeeds — instead of aborting the search as the claim requires. -/
theorem c6_counterexample :
    PageHeader.read ⟨[79, 103, 103, 83, 2, 3, 1, 2, 79, 103, 103, 83], [], 8⟩
        = .error .io
    ∧ processIndex [79, 103, 103, 83, 2, 3, 1, 2, 79, 103, 103, 83] [] 12 0
        [79, 103, 103, 83, 2, 3, 1, 2, 79, 103, 103, 83] 11 = none
    ∧ find_last_page 10 ⟨[79, 103, 103, 83, 2, 3, 1, 2, 79, 103, 103, 83], [], 0⟩
        = .ok ⟨2, 3⟩ := by
  refine ⟨by decide, by decide, by decide⟩

/-- C8 (counterexample): on the 6-byte stream `OggS, 200, 9` the reference
strategy (a forward scan remembering the last valid page) fails with a decode
error because no valid page exists, while the implemented `find_last_page`
succeeds via its forward fallback and returns the parsed-but-invalid header:
the observable contracts of the two strategies differ. -/
theorem c8_counterexample :
    refFind [79, 103, 103, 83, 200, 9] 0 = .error .decode
    ∧ find_last_page 10 ⟨[79, 103, 103, 83, 200, 9], [], 0⟩ = .ok ⟨200, 9⟩ := by
  refine ⟨by decide, by decide⟩

/-! ### C2: the backward scan need not terminate -/

theorem find_eq_of_back_noFuel (s : Stream) (fuel : Nat)
    (h : backLoop s.data s.bad s.pos s.data.length fuel s.data.length = .noFuel) :
    find_last_page fuel s = .noFuel := by
  unfold find_last_page
  rw [h]

/-- C2 (code bug): when the stream's start position is an absolute offset of
3 or more and the backward scan accepts no candidate, the loop never stops
advancing: once the unsearched region above `start_pos` shrinks below the
chunk size, `search_start` equals `start_pos ≥ 3`, so the `search_start < 3`
stop check never fires and `current_pos` is reset to `start_pos + 3` forever,
re-reading the same 3-byte window (which cannot contain a candidate, as a
candidate needs chunk index ≥ 3).  On the all-zero 10-byte stream with the
cursor at offset 3 the search never returns, for any amount of fuel. -/
theorem c2_nontermination :
    (∀ fuel, backLoop (List.replicate 10 0) [] 3 10 fuel 10 = .noFuel)
    ∧ ∀ fuel, find_last_page fuel ⟨List.replicate 10 0, [], 3⟩ = .noFuel := by
  have step : ∀ f, backLoop (List.replicate 10 0) [] 3 10 (f + 1) 6
      = backLoop (List.replicate 10 0) [] 3 10 f 6 := fun f => rfl
  have stuck : ∀ f, backLoop (List.replicate 10 0) [] 3 10 f 6 = .noFuel := by
    intro f
    induction f with
    | zero => rfl
    | succ f ih => rw [step f, ih]
  have whole : ∀ f, backLoop (List.replicate 10 0) [] 3 10 f 10 = .noFuel := by
    intro f
    cases f with
    | zero => rfl
    | succ f =>
      have h1 : backLoop (List.replicate 10 0) [] 3 10 (f + 1) 10
          = backLoop (List.replicate 10 0) [] 3 10 f 6 := rfl
      rw [h1, stuck]
  refine ⟨whole, fun fuel => find_eq_of_back_noFuel _ fuel (whole fuel)⟩

/-! ### C3: end-of-stream alignment accepts immediately, and strictly -/

/-- C3 (confirmed): during the backward scan, a candidate at chunk index `i`
(marker start at absolute offset `ss + (i - 3)`) whose header parses and
whose nominal page end (start + 6 header bytes + declared content length)
equals `file_len` is accepted immediately with the parsed header — the
result does not depend on any checksum computation; and when the nominal end
differs from `file_len` (in particular, when the page ends strictly before
`file_len`), the candidate is never accepted by that path: its fate is
exactly that of the checksum fallback (full-page read plus checksum
recomputation), so a misaligned page with an invalid checksum is rejected. -/
theorem c3_end_alignment
    (d bad : List Nat) (flen ss : Nat) (chunk : List Nat) (i : Nat)
    (h : PageHeader) (s1 : Stream)
    (hb : chunk[i]? = some 83) (h3 : 3 ≤ i)
    (hpre : listSlice chunk (i - 3) i = some [79, 103, 103])
    (hread : PageHeader.read ⟨d, bad, ss + (i - 3)⟩ = .ok (h, s1)) :
    (ss + (i - 3) + 6 + h.content_size = flen →
      processIndex d bad flen ss chunk i = some (.found h))
    ∧ (ss + (i - 3) + 6 + h.content_size ≠ flen →
      processIndex d bad flen ss chunk i =
        match Page.read ⟨d, bad, ss + (i - 3)⟩ with
        | .ok (page, _) =>
            if crc32 page.content = page.header.checksum
            then some (.found page.gen_crc.header) else none
        | .error _ => none) := by
  obtain ⟨hs1, -⟩ := pageHeader_read_ok_dest hread
  have hproc : processIndex d bad flen ss chunk i = afterMarker d bad flen (ss + (i - 3)) := by
    unfold processIndex
    rw [hb]
    simp [h3, hpre]
  have hpos : s1.pos = ss + (i - 3) + 6 := by rw [hs1]
  have hafter : afterMarker d bad flen (ss + (i - 3)) =
      if ss + (i - 3) + 6 + h.content_size = flen then some (.found h)
      else
        match Page.read ⟨d, bad, ss + (i - 3)⟩ with
        | .ok (page, _) =>
            if crc32 page.content = page.header.checksum
            then some (.found page.gen_crc.header) else none
        | .error _ => none := by
    unfold afterMarker
    rw [hread]
    dsimp only [Page.gen_crc]
    rw [hpos]
    have harith : ss + (i - 3) + (ss + (i - 3) + 6 - (ss + (i - 3))) + h.content_size
        = ss + (i - 3) + 6 + h.content_size := by omega
    rw [harith]
  constructor
  · intro hal
    rw [hproc, hafter, if_pos hal]
  · intro hal
    rw [hproc, hafter, if_neg hal]

/-- C3 (witness): a one-page six-byte stream whose single page has zero
content length ends exactly at `file_len = 6` and is accepted immediately. -/
theorem c3_witness :
    processIndex [79, 103, 103, 83, 0, 0] [] 6 0 [79, 103, 103, 83, 0, 0] 3
      = some (.found ⟨0, 0⟩) :=
  (c3_end_alignment [79, 103, 103, 83, 0, 0] [] 6 0 [79, 103, 103, 83, 0, 0] 3
    ⟨0, 0⟩ ⟨[79, 103, 103, 83, 0, 0], [], 6⟩
    (by decide) (by decide) (by decide) (by decide)).1 (by decide)

/-! ### C5: header-parse failures are local and recoverable -/

/-- C5 (confirmed): when the header parse at a candidate marker position
fails, the candidate is simply discarded (`processIndex` yields `none`) and
the in-chunk backward scan continues with the next smaller index, its
outcome unchanged: scanning down from the failing index gives the same
result as scanning down from the index below it, so no number of
false-positive candidates can abort or alter the search. -/
theorem c5_parse_failure_is_local
    (d bad : List Nat) (flen ss : Nat) (chunk : List Nat) (i : Nat) (e : Err)
    (hb : chunk[i + 1]? = some 83) (h3 : 3 ≤ i + 1)
    (hpre : listSlice chunk (i + 1 - 3) (i + 1) = some [79, 103, 103])
    (hread : PageHeader.read ⟨d, bad, ss + (i + 1 - 3)⟩ = .error e) :
    processIndex d bad flen ss chunk (i + 1) = none
    ∧ scanFrom d bad flen ss chunk (i + 1) = scanFrom d bad flen ss chunk i := by
  have hproc : processIndex d bad flen ss chunk (i + 1) = none := by
    unfold processIndex
    rw [hb]
    simp only [if_pos h3, hpre]
    unfold afterMarker
    rw [hread]
    simp
  refine ⟨hproc, ?_⟩
  show (match processIndex d bad flen ss chunk (i + 1) with
        | some h => Inner.hit h
        | none => scanFrom d bad flen ss chunk i)
      = scanFrom d bad flen ss chunk i
  rw [hproc]

/-- C5 (witness): a stream that ends directly after the marker bytes makes
the header read fail; the candidate at chunk index 3 is discarded and the
scan continues below it. -/
theorem c5_witness :
    processIndex [79, 103, 103, 83] [] 4 0 [79, 103, 103, 83] 3 = none
    ∧ scanFrom [79, 103, 103, 83] [] 4 0 [79, 103, 103, 83] 3
      = scanFrom [79, 103, 103, 83] [] 4 0 [79, 103, 103, 83] 2 :=
  c5_parse_failure_is_local [79, 103, 103, 83] [] 4 0 [79, 103, 103, 83] 2 .io
    (by decide) (by decide) (by decide) (by decide)

/-! ### C4: the forward fallback -/

theorem fwdLoop_ne_err (d bad : List Nat) :
    ∀ f pos last e, fwdLoop d bad f pos last ≠ .err e := by
  intro f
  induction f with
  | zero => intro pos last e h; cases h
  | succ f ih =>
    intro pos last e h
    unfold fwdLoop at h
    split at h
    · cases h
    · exact ih _ _ e h

/-- C4 (confirmed): when the backward scan concludes without accepting a
candidate (fall-through), `find_last_page` runs the forward traversal from
the start position; the traversal parses a header, on success remembers it
and skips forward by its declared content length, and on a parse failure
returns the most recently remembered header; the whole call fails — with
exactly the error propagated from the header read — if and only if even the
first header at the start position cannot be parsed. -/
theorem c4_forward_fallback (d bad : List Nat) (sp fuel : Nat) :
    (backLoop d bad sp d.length fuel d.length = .fallthrough →
      find_last_page fuel ⟨d, bad, sp⟩ =
        match PageHeader.read ⟨d, bad, sp⟩ with
        | .error e => .err e
        | .ok (h, s1) => fwdLoop d bad fuel (s1.pos + h.content_size) h)
    ∧ (∀ pos last e, PageHeader.read ⟨d, bad, pos⟩ = .error e →
      fwdLoop d bad (fuel + 1) pos last = .ok last)
    ∧ (∀ pos last h s1, PageHeader.read ⟨d, bad, pos⟩ = .ok (h, s1) →
      fwdLoop d bad (fuel + 1) pos last = fwdLoop d bad fuel (s1.pos + h.content_size) h)
    ∧ (backLoop d bad sp d.length fuel d.length = .fallthrough →
      ∀ e, (find_last_page fuel ⟨d, bad, sp⟩ = .err e ↔
        PageHeader.read ⟨d, bad, sp⟩ = .error e)) := by
  have hfall : backLoop d bad sp d.length fuel d.length = .fallthrough →
      find_last_page fuel ⟨d, bad, sp⟩ =
        match PageHeader.read ⟨d, bad, sp⟩ with
        | .error e => .err e
        | .ok (h, s1) => fwdLoop d bad fuel (s1.pos + h.content_size) h := by
    intro hb
    unfold find_last_page
    rw [hb]
  refine ⟨hfall, ?_, ?_, ?_⟩
  · intro pos last e hr
    unfold fwdLoop
    rw [hr]
  · intro pos last h s1 hr
    show (match PageHeader.read ⟨d, bad, pos⟩ with
          | .error _ => Outcome.ok last
          | .ok (h, s1) => fwdLoop d bad fuel (s1.pos + h.content_size) h)
        = fwdLoop d bad fuel (s1.pos + h.content_size) h
    rw [hr]
  · intro hb e
    rw [hfall hb]
    constructor
    · intro hfe
      split at hfe
      next e' heq =>
        injection hfe with h1
        rw [heq, h1]
      next h s1 heq => exact absurd hfe (fwdLoop_ne_err d bad fuel _ h e)
    · intro hr
      rw [hr]

/-- C4 (witness): on the stream `OggS, 200, 7` the backward scan falls
through and the forward fallback parses the single header, skips its
(over-long) declared content, fails the next parse, and returns the header;
the same stream also witnesses the step equations and the failure `iff`. -/
theorem c4_witness :
    find_last_page 10 ⟨[79, 103, 103, 83, 200, 7], [], 0⟩ = .ok ⟨200, 7⟩
    ∧ fwdLoop [79, 103, 103, 83, 200, 7] [] 11 206 ⟨200, 7⟩ = .ok ⟨200, 7⟩
    ∧ fwdLoop [79, 103, 103, 83, 200, 7] [] 11 0 ⟨9, 9⟩
        = fwdLoop [79, 103, 103, 83, 200, 7] [] 10 206 ⟨200, 7⟩
    ∧ (find_last_page 10 ⟨[79, 103, 103, 83, 200, 7], [], 0⟩ = .err .decode ↔
        PageHeader.read ⟨[79, 103, 103, 83, 200, 7], [], 0⟩ = .error .decode) := by
  have h := c4_forward_fallback [79, 103, 103, 83, 200, 7] [] 0 10
  refine ⟨?_, ?_, ?_, ?_⟩
  · exact (h.1 (by decide)).trans (by decide)
  · exact h.2.1 206 ⟨200, 7⟩ .io (by decide)
  · exact h.2.2.1 0 ⟨9, 9⟩ ⟨200, 7⟩ ⟨[79, 103, 103, 83, 200, 7], [], 6⟩ (by decide)
  · exact h.2.2.2 (by decide) .decode

/-! ### C6 (amended): which I/O errors abort the backward scan -/

/-- C6 (amended, theorem): an I/O failure of one of the locator's own chunk
reads is propagated upward and aborts the backward scan (and the whole
call), but an I/O error arising inside a candidate's header parse during the
scan is locally swallowed: the candidate is discarded exactly like a parse
failure and scanning continues. -/
theorem c6_amended (d bad : List Nat) (sp flen : Nat) :
    (∀ fuel cp e, sp < cp →
      Stream.readExact ⟨d, bad, cp - min CHUNK_SIZE (cp - sp)⟩ (min CHUNK_SIZE (cp - sp))
        = .error e →
      backLoop d bad sp flen (fuel + 1) cp = .failed e)
    ∧ (∀ (ss : Nat) (chunk : List Nat) (i : Nat), chunk[i]? = some 83 → 3 ≤ i →
      listSlice chunk (i - 3) i = some [79, 103, 103] →
      PageHeader.read ⟨d, bad, ss + (i - 3)⟩ = .error .io →
      processIndex d bad flen ss chunk i = none)
    ∧ (∀ fuel e, backLoop d bad sp d.length fuel d.length = .failed e →
      find_last_page fuel ⟨d, bad, sp⟩ = .err e) := by
  refine ⟨?_, ?_, ?_⟩
  · intro fuel cp e hlt hre
    unfold backLoop
    rw [if_neg (by omega)]
    rw [if_pos (Nat.min_le_left _ _)]
    rw [hre]
  · intro ss chunk i hb h3 hpre hread
    unfold processIndex
    rw [hb]
    simp only [if_pos h3, hpre]
    unfold afterMarker
    rw [hread]
    simp
  · intro fuel e hb
    unfold find_last_page
    rw [hb]

/-- C6 (amended, witness): with offset 0 unreadable on a four-byte stream,
the chunk read fails and the failure is propagated by the scan and by
`find_last_page`; on the same faulty stream a candidate header read fails
with an I/O error and is merely discarded. -/
theorem c6_witness :
    backLoop [0, 0, 0, 0] [0] 0 4 1 4 = .failed .io
    ∧ processIndex [0, 0, 0, 0] [0] 4 0 [79, 103, 103, 83] 3 = none
    ∧ find_last_page 1 ⟨[0, 0, 0, 0], [0], 0⟩ = .err .io := by
  have h := c6_amended [0, 0, 0, 0] [0] 0 4
  refine ⟨?_, ?_, ?_⟩
  · exact h.1 0 4 .io (by decide) (by decide)
  · exact h.2.1 0 [79, 103, 103, 83] 3 (by decide) (by decide) (by decide) (by decide)
  · exact h.2.2 1 .io (h.1 0 4 .io (by decide) (by decide))

/-! ### C10: all slice indexing is in bounds -/

theorem afterMarker_cases (d bad : List Nat) (flen p : Nat) :
    afterMarker d bad flen p = none
    ∨ ∃ h, afterMarker d bad flen p = some (.found h) := by
  unfold afterMarker
  split
  · exact Or.inl rfl
  next h s1 heq =>
    dsimp only
    by_cases hal : p + (s1.pos - p) + h.content_size = flen
    · rw [if_pos hal]
      exact Or.inr ⟨_, rfl⟩
    · rw [if_neg hal]
      split
      · split
        · exact Or.inr ⟨_, rfl⟩
        · exact Or.inl rfl
      · exact Or.inl rfl

theorem afterMarker_ne_panicked (d bad : List Nat) (flen p : Nat) :
    afterMarker d bad flen p ≠ some .panicked := by
  rcases afterMarker_cases d bad flen p with h | ⟨hd, h⟩ <;> rw [h] <;> simp

theorem processIndex_ne_panicked (d bad : List Nat) (flen ss : Nat) (chunk : List Nat)
    (i : Nat) (hi : i < chunk.length) :
    processIndex d bad flen ss chunk i ≠ some .panicked := by
  unfold processIndex
  rcases hg : chunk[i]? with _ | b
  · rw [List.getElem?_eq_none_iff] at hg
    omega
  · dsimp only
    by_cases hb : b = 83
    · rw [if_pos hb]
      by_cases h3 : 3 ≤ i
      · rw [if_pos h3]
        have hsl : listSlice chunk (i - 3) i
            = some ((chunk.drop (i - 3)).take (i - (i - 3))) := by
          unfold listSlice
          rw [if_pos ⟨by omega, by omega⟩]
        rw [hsl]
        dsimp only
        split
        · exact afterMarker_ne_panicked d bad flen (ss + (i - 3))
        · simp
      · rw [if_neg h3]
        simp
    · rw [if_neg hb]
      simp

theorem scanFrom_ne_panicked (d bad : List Nat) (flen ss : Nat) (chunk : List Nat) :
    ∀ i, i < chunk.length → scanFrom d bad flen ss chunk i ≠ .hit .panicked := by
  intro i
  induction i with
  | zero =>
    intro hi h
    unfold scanFrom at h
    split at h
    next r heq =>
      injection h with h'
      rw [h'] at heq
      exact processIndex_ne_panicked d bad flen ss chunk 0 hi heq
    next heq => cases h
  | succ i ih =>
    intro hi h
    unfold scanFrom at h
    split at h
    next r heq =>
      injection h with h'
      rw [h'] at heq
      exact processIndex_ne_panicked d bad flen ss chunk (i + 1) hi heq
    next heq => exact ih (by omega) h

theorem scanChunk_ne_panicked (d bad : List Nat) (flen ss : Nat) (chunk : List Nat) :
    scanChunk d bad flen ss chunk ≠ .hit .panicked := by
  unfold scanChunk
  split
  · simp
  next n heq =>
    exact scanFrom_ne_panicked d bad flen ss chunk n (by omega)

theorem backLoop_ne_panicked (d bad : List Nat) (sp flen : Nat) :
    ∀ fuel cp, backLoop d bad sp flen fuel cp ≠ .panicked := by
  intro fuel
  induction fuel with
  | zero => intro cp h; cases h
  | succ f ih =>
    intro cp h
    unfold backLoop at h
    split at h
    · cases h
    · split at h
      · split at h
        next e heq => cases h
        next chunk s' heq =>
          split at h
          next hh hsc => cases h
          next hsc => exact scanChunk_ne_panicked d bad flen _ chunk hsc
          next hsc =>
            split at h
            · cases h
            · exact ih _ h
      next hc => exact absurd (Nat.min_le_left _ _) hc

theorem fwdLoop_ne_panicked (d bad : List Nat) :
    ∀ f pos last, fwdLoop d bad f pos last ≠ .panicked := by
  intro f
  induction f with
  | zero => intro pos last h; cases h
  | succ f ih =>
    intro pos last h
    unfold fwdLoop at h
    split at h
    · cases h
    · exact ih _ _ h

/-- C10 (confirmed): no slice indexing in the module can go out of bounds,
so no run can panic: `verify_signature` only evaluates `content[..sig_len]`
under the short-circuit guard `sig_len ≤ content.len()`, and in
`find_last_page` the chunk slice `buffer[..size]` always has
`size ≤ CHUNK_SIZE`, the in-chunk index is always within the chunk, and the
marker-prefix slice `chunk[i-3..i]` is only evaluated when `3 ≤ i`; hence
neither function, on any input (any bytes, any faulty offsets, any cursor,
any fuel), returns the panic outcome. -/
theorem c10_no_panic :
    (∀ content sig : List Nat, (verify_signature content sig).isPanic = false)
    ∧ ∀ (fuel : Nat) (s : Stream), (find_last_page fuel s).isPanic = false := by
  constructor
  · intro content sig
    unfold verify_signature
    by_cases hlt : content.length < sig.length
    · rw [if_pos hlt]
      rfl
    · rw [if_neg hlt]
      have hsl : listSlice content 0 sig.length
          = some ((content.drop 0).take (sig.length - 0)) := by
        unfold listSlice
        rw [if_pos ⟨Nat.zero_le _, Nat.le_of_not_lt hlt⟩]
      rw [hsl]
      dsimp only
      split <;> rfl
  · intro fuel s
    unfold find_last_page
    rcases hbl : backLoop s.data s.bad s.pos s.data.length fuel s.data.length
        with h | _ | e | _ | _
    · rfl
    · dsimp only
      split
      · rfl
      next h s1 heq =>
        rcases hfw : fwdLoop s.data s.bad fuel (s1.pos + h.content_size) h with r | e | _ | _
        · rfl
        · rfl
        · exact absurd hfw (fwdLoop_ne_panicked s.data s.bad fuel _ _)
        · rfl
    · rfl
    · exact absurd hbl (backLoop_ne_panicked s.data s.bad s.pos s.data.length fuel _)
    · rfl

/-! ### Correspondence between in-chunk candidates and absolute offsets -/

theorem chunk_spec {d bad : List Nat} {ss size : Nat} {chunk : List Nat} {s1 : Stream}
    (h : Stream.readExact ⟨d, bad, ss⟩ size = .ok (chunk, s1)) :
    chunk = (d.drop ss).take size ∧ ss + size ≤ d.length := by
  obtain ⟨h1, h2, h3, h4⟩ := readExact_ok h
  exact ⟨h1, h3⟩

theorem chunk_length {d : List Nat} {ss size : Nat} (hsz : ss + size ≤ d.length) :
    ((d.drop ss).take size).length = size := by
  rw [List.length_take, List.length_drop]
  omega

theorem chunk_getElem {d : List Nat} {ss size i : Nat} (hi : i < size) :
    ((d.drop ss).take size)[i]? = d[ss + i]? := by
  rw [List.getElem?_take_of_lt hi, List.getElem?_drop]

theorem chunk_slice {d : List Nat} {ss size : Nat} (a b : Nat)
    (hab : a ≤ b) (hb : b ≤ size) (hsz : ss + size ≤ d.length) :
    listSlice ((d.drop ss).take size) a b = listSlice d (ss + a) (ss + b) := by
  unfold listSlice
  rw [if_pos ⟨hab, by rw [chunk_length hsz]; omega⟩, if_pos ⟨by omega, by omega⟩]
  have h1 : ss + b - (ss + a) = b - a := by omega
  rw [h1]
  rw [List.drop_take, List.drop_drop, List.take_take]
  have h2 : min (b - a) (size - a) = b - a := by omega
  rw [h2, Nat.add_comm ss a]

theorem processIndex_eq_candidateAt {d bad : List Nat} {flen ss size i : Nat}
    (hsz : ss + size ≤ d.length) (h3 : 3 ≤ i) (hi : i < size) :
    processIndex d bad flen ss ((d.drop ss).take size) i
      = candidateAt d bad flen (ss + (i - 3)) := by
  unfold processIndex candidateAt
  rw [chunk_getElem hi,
    chunk_slice (i - 3) i (by omega) (le_of_lt hi) hsz]
  have h1 : ss + (i - 3) + 3 = ss + i := by omega
  rw [h1]
  have h2 : ss + (i - 3) = ss + i - 3 := by omega
  rcases hd : d[ss + i]? with _ | b
  · rw [List.getElem?_eq_none_iff] at hd
    omega
  · dsimp only
    by_cases hb : b = 83
    · subst hb
      rw [if_pos rfl]
      rw [if_pos h3]
      have hs : listSlice d (ss + (i - 3)) (ss + i)
          = some ((d.drop (ss + (i - 3))).take (ss + i - (ss + (i - 3)))) := by
        unfold listSlice
        rw [if_pos ⟨by omega, by omega⟩]
      rw [hs]
      dsimp only
      by_cases hX : (d.drop (ss + (i - 3))).take (ss + i - (ss + (i - 3))) = [79, 103, 103]
      · rw [if_pos hX, if_pos ⟨rfl, by rw [hX]⟩]
      · rw [if_neg hX, if_neg]
        intro hcond
        exact hX (Option.some.inj hcond.2)
    · rw [if_neg hb, if_neg]
      intro hcond
      exact hb (Option.some.inj hcond.1)

theorem processIndex_small {d bad : List Nat} {flen ss : Nat} {chunk : List Nat}
    {j : Nat} (hj : j < 3) (hjlen : j < chunk.length) :
    processIndex d bad flen ss chunk j = none := by
  unfold processIndex
  rcases hg : chunk[j]? with _ | b
  · rw [List.getElem?_eq_none_iff] at hg
    omega
  · dsimp only
    by_cases hb : b = 83
    · rw [if_pos hb, if_neg (by omega)]
    · rw [if_neg hb]

/-! ### The in-chunk scan visits every index -/

theorem scanFrom_exhausted_iff (d bad : List Nat) (flen ss : Nat) (chunk : List Nat) :
    ∀ i, (scanFrom d bad flen ss chunk i = .exhausted ↔
      ∀ j, j ≤ i → processIndex d bad flen ss chunk j = none) := by
  intro i
  induction i with
  | zero =>
    constructor
    · intro h j hj
      have hj0 : j = 0 := by omega
      subst hj0
      rcases hp : processIndex d bad flen ss chunk 0 with _ | r
      · rfl
      · unfold scanFrom at h
        rw [hp] at h
        cases h
    · intro hall
      unfold scanFrom
      rw [hall 0 (le_refl 0)]
  | succ i ih =>
    constructor
    · intro h j hj
      rcases hp : processIndex d bad flen ss chunk (i + 1) with _ | r
      · unfold scanFrom at h
        rw [hp] at h
        rcases Nat.lt_or_ge j (i + 1) with hlt | hge
        · exact (ih.mp h) j (by omega)
        · have : j = i + 1 := by omega
          subst this
          exact hp
      · unfold scanFrom at h
        rw [hp] at h
        cases h
    · intro hall
      unfold scanFrom
      rw [hall (i + 1) (le_refl _)]
      exact ih.mpr (fun j hj => hall j (by omega))

theorem scanFrom_hit_of (d bad : List Nat) (flen ss : Nat) (chunk : List Nat)
    (i0 : Nat) (r : Hit) (hp : processIndex d bad flen ss chunk i0 = some r) :
    ∀ i, i0 ≤ i → (∀ j, i0 < j → j ≤ i → processIndex d bad flen ss chunk j = none) →
      scanFrom d bad flen ss chunk i = .hit r := by
  intro i
  induction i with
  | zero =>
    intro hle hnone
    have h0 : i0 = 0 := by omega
    subst h0
    unfold scanFrom
    rw [hp]
  | succ i ih =>
    intro hle hnone
    by_cases hei : i0 = i + 1
    · subst hei
      unfold scanFrom
      rw [hp]
    · have hpn : processIndex d bad flen ss chunk (i + 1) = none :=
        hnone (i + 1) (by omega) (le_refl _)
      have hgoal : scanFrom d bad flen ss chunk i = .hit r :=
        ih (by omega) (fun j h1 h2 => hnone j h1 (by omega))
      unfold scanFrom
      rw [hpn]
      exact hgoal

/-! ### Chunk-level summary lemmas -/

theorem scanChunk_exhausted_of {d bad : List Nat} {flen ss size : Nat}
    (hsz : ss + size ≤ d.length)
    (hnone : ∀ q, ss ≤ q → q + 3 < ss + size → candidateAt d bad flen q = none) :
    scanChunk d bad flen ss ((d.drop ss).take size) = .exhausted := by
  unfold scanChunk
  split
  · rfl
  next n hn =>
    rw [chunk_length hsz] at hn
    apply (scanFrom_exhausted_iff d bad flen ss _ n).mpr
    intro j hj
    by_cases hj3 : 3 ≤ j
    · rw [processIndex_eq_candidateAt hsz hj3 (by omega)]
      exact hnone _ (by omega) (by omega)
    · exact processIndex_small (by omega) (by rw [chunk_length hsz]; omega)

theorem scanChunk_hit_of {d bad : List Nat} {flen ss size q : Nat} {r : Hit}
    (hsz : ss + size ≤ d.length) (hq1 : ss ≤ q) (hq2 : q + 3 < ss + size)
    (hacc : candidateAt d bad flen q = some r)
    (hrest : ∀ q', q < q' → q' + 3 < ss + size → candidateAt d bad flen q' = none) :
    scanChunk d bad flen ss ((d.drop ss).take size) = .hit r := by
  unfold scanChunk
  split
  next hn =>
    rw [chunk_length hsz] at hn
    omega
  next n hn =>
    rw [chunk_length hsz] at hn
    have hj3 : 3 ≤ q - ss + 3 := by omega
    have hji : q - ss + 3 < size := by omega
    have hp : processIndex d bad flen ss ((d.drop ss).take size) (q - ss + 3) = some r := by
      rw [processIndex_eq_candidateAt hsz hj3 hji]
      have : ss + (q - ss + 3 - 3) = q := by omega
      rw [this]
      exact hacc
    apply scanFrom_hit_of d bad flen ss _ (q - ss + 3) r hp n (by omega)
    intro j h1 h2
    have hjj3 : 3 ≤ j := by omega
    rw [processIndex_eq_candidateAt hsz hjj3 (by omega)]
    exact hrest _ (by omega) (by omega)

theorem scanChunk_exhausted_dest {d bad : List Nat} {flen ss size : Nat} {chunk : List Nat}
    (hchunk : chunk = (d.drop ss).take size) (hsz : ss + size ≤ d.length)
    (hex : scanChunk d bad flen ss chunk = .exhausted) :
    ∀ q, ss ≤ q → q + 3 < ss + size → candidateAt d bad flen q = none := by
  intro q h1 h2
  subst hchunk
  unfold scanChunk at hex
  split at hex
  next h0 =>
    rw [chunk_length hsz] at h0
    omega
  next n hn =>
    rw [chunk_length hsz] at hn
    have h3 : 3 ≤ q - ss + 3 := by omega
    have hji : q - ss + 3 < size := by omega
    have hout := (scanFrom_exhausted_iff d bad flen ss _ n).mp hex (q - ss + 3) (by omega)
    rw [processIndex_eq_candidateAt hsz h3 hji] at hout
    have harg : ss + (q - ss + 3 - 3) = q := by omega
    rw [harg] at hout
    exact hout

/-! ### Backward-scan coverage: fall-through means every candidate at an
absolute offset at least 2 was evaluated and rejected -/

theorem backLoop_fallthrough_rejects (d bad : List Nat) (sp flen : Nat) :
    ∀ fuel cp, backLoop d bad sp flen fuel cp = .fallthrough →
      ∀ p, sp ≤ p → 2 ≤ p → p + 4 ≤ cp → candidateAt d bad flen p = none := by
  intro fuel
  induction fuel with
  | zero =>
    intro cp h
    cases h
  | succ f ih =>
    intro cp h p hsp h2 hp4
    unfold backLoop at h
    split at h
    next hcp => omega
    next hcp =>
      rw [if_pos (Nat.min_le_left _ _)] at h
      split at h
      next e heq => cases h
      next chunk s1 heq =>
        obtain ⟨hchunk, hsz⟩ := chunk_spec heq
        have hm1 : min CHUNK_SIZE (cp - sp) ≤ cp - sp := Nat.min_le_right _ _
        have hmcp : cp - min CHUNK_SIZE (cp - sp) + min CHUNK_SIZE (cp - sp) = cp := by omega
        split at h
        next h0 hsc => cases h
        next hsc => cases h
        next hsc =>
          split at h
          next hss =>
            exact scanChunk_exhausted_dest hchunk hsz hsc p (by omega) (by omega)
          next hss =>
            by_cases hpin : p + 4 ≤ cp - min CHUNK_SIZE (cp - sp) + 3
            · exact ih _ h p hsp h2 hpin
            · exact scanChunk_exhausted_dest hchunk hsz hsc p (by omega) (by omega)

/-! ### Backward-scan acceptance: the greatest valid candidate at an absolute
offset at least 2 is found and returned -/

theorem backLoop_accepts (d : List Nat) (sp flen p : Nat) (h : PageHeader)
    (hval : candidateAt d [] flen p = some (.found h))
    (hmax : ∀ q, p < q → q < d.length → candidateAt d [] flen q = none)
    (hsp : sp ≤ p) (h2 : 2 ≤ p) :
    ∀ fuel cp, p + 4 ≤ cp → cp ≤ d.length → cp ≤ fuel →
      backLoop d [] sp flen fuel cp = .accepted h := by
  intro fuel
  induction fuel with
  | zero =>
    intro cp hc1 hc2 hc3
    omega
  | succ f ih =>
    intro cp hc1 hc2 hc3
    have hcp : ¬ cp ≤ sp := by omega
    have hm1 : min CHUNK_SIZE (cp - sp) ≤ cp - sp := Nat.min_le_right _ _
    have hm4 : 4 ≤ min CHUNK_SIZE (cp - sp) := by
      refine le_min ?_ (by omega)
      norm_num [CHUNK_SIZE]
    have hmcp : cp - min CHUNK_SIZE (cp - sp) + min CHUNK_SIZE (cp - sp) = cp := by omega
    have hsz : cp - min CHUNK_SIZE (cp - sp) + min CHUNK_SIZE (cp - sp) ≤ d.length := by omega
    have hre : Stream.readExact ⟨d, [], cp - min CHUNK_SIZE (cp - sp)⟩
          (min CHUNK_SIZE (cp - sp))
        = .ok ((d.drop (cp - min CHUNK_SIZE (cp - sp))).take (min CHUNK_SIZE (cp - sp)),
            ⟨d, [], cp - min CHUNK_SIZE (cp - sp) + min CHUNK_SIZE (cp - sp)⟩) := by
      apply readExact_ok_of
      · simpa using hsz
      · simp
    unfold backLoop
    rw [if_neg hcp, if_pos (Nat.min_le_left _ _), hre]
    dsimp only
    by_cases hin : cp - min CHUNK_SIZE (cp - sp) ≤ p
    · have hsc := scanChunk_hit_of hsz hin (by omega) hval
        (fun q' hq1 hq2 => hmax q' hq1 (by omega))
      rw [hsc]
    · have hsc := scanChunk_exhausted_of hsz
        (fun q hq1 hq2 => hmax q (by omega) (by omega))
      rw [hsc]
      rw [if_neg ((by omega : ¬ cp - min CHUNK_SIZE (cp - sp) < 3))]
      exact ih _ (by omega) (by omega) (by omega)

/-! ### Structure of an accepted candidate -/

theorem candidateAt_found_dest {d bad : List Nat} {flen p : Nat} {h : PageHeader}
    (hc : candidateAt d bad flen p = some (.found h)) :
    p + 6 ≤ d.length
    ∧ (p + 6 + h.content_size = flen ∨ p + 6 + h.content_size ≤ d.length) := by
  unfold candidateAt at hc
  split at hc
  · unfold afterMarker at hc
    split at hc
    next e heq => cases hc
    next h0 s1 heq =>
      obtain ⟨hs1, hlen6⟩ := pageHeader_read_ok_dest heq
      subst hs1
      dsimp only at hc
      split at hc
      next hal =>
        injection hc with hc'
        injection hc' with hc''
        subst hc''
        refine ⟨by simpa using hlen6, Or.inl (by omega)⟩
      next hal =>
        split at hc
        next pg s2 heq2 =>
          obtain ⟨hre, hbound⟩ := page_read_ok_dest heq2
          split at hc
          next hcrc =>
            injection hc with hc'
            injection hc' with hc''
            refine ⟨by simpa using hlen6, Or.inr ?_⟩
            have hcs : h.content_size = pg.header.content_size := by
              rw [← hc'']
              rfl
            rw [hcs]
            simpa using hbound
          next hcrc => cases hc
        next e heq2 => cases hc
  · cases hc

theorem find_eq_of_back_accepted (s : Stream) (fuel : Nat) (h : PageHeader)
    (hb : backLoop s.data s.bad s.pos s.data.length fuel s.data.length = .accepted h) :
    find_last_page fuel s = .ok h := by
  unfold find_last_page
  rw [hb]

/-! ### C7: marker coverage of the backward scan -/

/-- C7 (amended, theorem): when the backward scan concludes by falling
through to the forward fallback, every marker position `p` with
`start_pos ≤ p`, `2 ≤ p` and `p + 4 ≤ file_len` — including positions whose
marker bytes straddle a chunk boundary, thanks to the 3-byte overlap — was
evaluated as a candidate and rejected (its spec-side candidate evaluation is
`none`); positions at absolute offsets 0 and 1 are not covered, because the
stop check `search_start < 3` can abandon the scan with a final chunk
starting at absolute offset 1 or 2. -/
theorem c7_amended (d bad : List Nat) (sp fuel p : Nat)
    (hft : backLoop d bad sp d.length fuel d.length = .fallthrough)
    (hsp : sp ≤ p) (h2 : 2 ≤ p) (hp4 : p + 4 ≤ d.length) :
    candidateAt d bad d.length p = none :=
  backLoop_fallthrough_rejects d bad sp d.length fuel d.length hft p hsp h2 hp4

/-- C7 (witness): an eight-byte stream whose single candidate at offset 2 is
rejected (its declared content runs past the end and its full-page read
fails); the scan falls through, and the candidate evaluation at offset 2 is
indeed `none`. -/
theorem c7_witness :
    candidateAt [0, 0, 79, 103, 103, 83, 200, 7] [] 8 2 = none := by
  have h := c7_amended [0, 0, 79, 103, 103, 83, 200, 7] [] 0 1 2
    (by decide) (by decide) (by decide) (by decide)
  simpa using h

/-- The straddle/stop-check counterexample stream: a checksum-valid page at
offset 0 (content length 10, all-zero content, stored checksum 0), padded
with zeros to a total length of 8194 bytes. -/
def bigData : List Nat :=
  [79, 103, 103, 83, 10, 0, 0, 0, 0, 0, 0, 0, 0, 0, 0, 0] ++ List.replicate 8178 0

theorem bigData_length : bigData.length = 8194 := by
  unfold bigData
  rw [List.length_append, List.length_replicate]
  decide

theorem bigData_no_marker_high : ∀ i, 4 ≤ i → bigData[i]? ≠ some 83 := by
  intro i hi
  have h16 : ([79, 103, 103, 83, 10, 0, 0, 0, 0, 0, 0, 0, 0, 0, 0, 0] : List Nat).length = 16 :=
    rfl
  unfold bigData
  rcases Nat.lt_or_ge i 16 with hlt | hge
  · rw [List.getElem?_append_left (by rw [h16]; omega)]
    interval_cases i <;> decide
  · rw [List.getElem?_append_right (by rw [h16]; omega), h16]
    rcases Nat.lt_or_ge (i - 16) 8178 with h1 | h1
    · rw [List.getElem?_replicate, if_pos h1]
      decide
    · rw [List.getElem?_replicate, if_neg (by omega)]
      decide

theorem backLoop_step (d bad : List Nat) (sp flen f cp ss size : Nat)
    (hsize : size = min CHUNK_SIZE (cp - sp)) (hss : ss = cp - size) (hcp : sp < cp)
    (chunk : List Nat) (s1 : Stream)
    (hre : Stream.readExact ⟨d, bad, ss⟩ size = .ok (chunk, s1)) :
    backLoop d bad sp flen (f + 1) cp =
      match scanChunk d bad flen ss chunk with
      | .hit (.found h) => .accepted h
      | .hit .panicked => .panicked
      | .exhausted =>
        if ss < 3 then .fallthrough else backLoop d bad sp flen f (ss + 3) := by
  subst hsize
  subst hss
  conv_lhs => unfold backLoop
  rw [if_neg (by omega), if_pos (Nat.min_le_left _ _), hre]

theorem candidateAt_eval_crc (d bad : List Nat) (flen p : Nat) (h : PageHeader)
    (pg : Page) (s1 s2 : Stream)
    (hmark : d[p + 3]? = some 83) (hsl : listSlice d p (p + 3) = some [79, 103, 103])
    (hread : PageHeader.read ⟨d, bad, p⟩ = .ok (h, s1))
    (hal : ¬ p + (s1.pos - p) + h.content_size = flen)
    (hpage : Page.read ⟨d, bad, p⟩ = .ok (pg, s2))
    (hcrc : (pg.gen_crc).header.checksum = pg.header.checksum) :
    candidateAt d bad flen p = some (.found pg.gen_crc.header) := by
  unfold candidateAt
  rw [if_pos ⟨hmark, hsl⟩]
  unfold afterMarker
  rw [hread]
  dsimp only
  rw [if_neg hal, hpage]
  dsimp only
  rw [if_pos hcrc]

/-- C7 (counterexample): on `bigData` with the cursor at offset 0, the
backward scan reads the single chunk `[2, 8194)` (size `CHUNK_SIZE = 8192`),
finds no candidate there — the marker at offset 0 has only its last two
bytes inside the chunk, at in-chunk indices below 3 — and then stops because
`search_start = 2 < 3`, falling through without ever evaluating the
candidate at offset 0, even though offset 0 holds a marker whose candidate
evaluation accepts (a checksum-valid page); so not every in-range marker
position is examined. -/
theorem c7_counterexample :
    backLoop bigData [] 0 bigData.length 1 bigData.length = .fallthrough
    ∧ listSlice bigData 0 4 = some [79, 103, 103, 83]
    ∧ candidateAt bigData [] bigData.length 0 = some (.found ⟨10, 0⟩) := by
  have hlen := bigData_length
  have hnone : ∀ q, 2 ≤ q → candidateAt bigData [] 8194 q = none := by
    intro q hq
    unfold candidateAt
    rw [if_neg]
    intro hcond
    exact bigData_no_marker_high (q + 3) (by omega) hcond.1
  refine ⟨?_, ?_, ?_⟩
  · rw [hlen]
    have hsz : (2:Nat) + 8192 ≤ bigData.length := by omega
    have hre : Stream.readExact ⟨bigData, [], 2⟩ 8192
        = .ok ((bigData.drop 2).take 8192, ⟨bigData, [], 2 + 8192⟩) := by
      apply readExact_ok_of
      · simpa using hsz
      · simp
    have hex : scanChunk bigData [] 8194 2 ((bigData.drop 2).take 8192) = .exhausted :=
      scanChunk_exhausted_of hsz (fun q h1 h2 => hnone q h1)
    have hstep := backLoop_step bigData [] 0 8194 0 8194 2 8192 rfl rfl (by omega) _ _ hre
    exact hstep.trans (by rw [hex]; rfl)
  · unfold listSlice
    rw [if_pos ⟨by omega, by omega⟩]
    rfl
  · rw [hlen]
    have hr6 : Stream.readExact ⟨bigData, [], 0⟩ 6
        = .ok ((bigData.drop 0).take 6, ⟨bigData, [], 0 + 6⟩) := by
      apply readExact_ok_of
      · show 0 + 6 ≤ bigData.length
        omega
      · simp
    have hread : PageHeader.read ⟨bigData, [], 0⟩ = .ok (⟨10, 0⟩, ⟨bigData, [], 0 + 6⟩) := by
      unfold PageHeader.read
      rw [hr6]
      rfl
    have hr10 : Stream.readExact ⟨bigData, [], 0 + 6⟩ 10
        = .ok ((bigData.drop 6).take 10, ⟨bigData, [], 6 + 10⟩) := by
      apply readExact_ok_of
      · show 0 + 6 + 10 ≤ bigData.length
        omega
      · simp
    have hpage : Page.read ⟨bigData, [], 0⟩
        = .ok (⟨⟨10, 0⟩, (bigData.drop 6).take 10⟩, ⟨bigData, [], 6 + 10⟩) := by
      unfold Page.read
      rw [hread]
      dsimp only
      rw [hr10]
    have hmark3 : bigData[(3:Nat)]? = some 83 := by
      unfold bigData
      rw [List.getElem?_append_left (by simp)]
      decide
    have hsl3 : listSlice bigData 0 3 = some [79, 103, 103] := by
      unfold listSlice
      rw [if_pos ⟨by omega, by omega⟩]
      rfl
    have hcand := candidateAt_eval_crc bigData [] 8194 0 ⟨10, 0⟩
      ⟨⟨10, 0⟩, (bigData.drop 6).take 10⟩ ⟨bigData, [], 0 + 6⟩ ⟨bigData, [], 6 + 10⟩
      hmark3 hsl3 hread (by decide) hpage (by decide)
    exact hcand.trans (by decide)

/-! ### C1: what a successful search returns -/

/-- C1 (amended, theorem): on an error-free stream, whenever some offset
`p ≥ max(start_pos, 2)` holds a valid page (one that ends exactly at
`file_len` or whose recomputed checksum matches its stored value) and `p` is
the greatest such offset, `find_last_page` succeeds via the backward scan
and returns exactly that page's header, whose start + header length +
declared content length does not exceed `file_len`.  (When no valid page
exists, a success can still be produced by the forward fallback and then
carries none of these guarantees; and a greatest valid page at absolute
offset 0 or 1 can be missed when the stream exceeds one chunk.) -/
theorem c1_amended (d : List Nat) (sp p : Nat) (h : PageHeader)
    (hval : candidateAt d [] d.length p = some (.found h))
    (hmax : ∀ q, p < q → q < d.length → candidateAt d [] d.length q = none)
    (hsp : sp ≤ p) (h2 : 2 ≤ p) :
    find_last_page (d.length + 2) ⟨d, [], sp⟩ = .ok h
    ∧ p + 6 + h.content_size ≤ d.length := by
  obtain ⟨hp6, hbound⟩ := candidateAt_found_dest hval
  have hacc := backLoop_accepts d sp d.length p h hval hmax hsp h2 (d.length + 2) d.length
    (by omega) (le_refl _) (by omega)
  constructor
  · exact find_eq_of_back_accepted ⟨d, [], sp⟩ (d.length + 2) h hacc
  · rcases hbound with h1 | h1
    · omega
    · exact h1

/-- C1 (witness): a nine-byte stream with a valid page at offset 2 ending
exactly at the end of the stream; `find_last_page` returns its header and
the page fits in the stream. -/
theorem c1_witness :
    find_last_page 11 ⟨[0, 0, 79, 103, 103, 83, 1, 9, 5], [], 0⟩ = .ok ⟨1, 9⟩
    ∧ 2 + 6 + (1:Nat) ≤ 9 :=
  c1_amended [0, 0, 79, 103, 103, 83, 1, 9, 5] 0 2 ⟨1, 9⟩
    (by decide)
    (by
      intro q h1 h2
      have h2' : q < 9 := by simpa using h2
      interval_cases q <;> decide)
    (by decide) (by decide)

/-! ### C8: agreement with the reference forward-scan strategy -/

theorem refFind_of_greatest (d : List Nat) (sp p : Nat) (h : PageHeader)
    (hval : candidateAt d [] d.length p = some (.found h))
    (hmax : ∀ q, p < q → q < d.length → candidateAt d [] d.length q = none)
    (hsp : sp ≤ p) :
    refFind d sp = .ok h := by
  obtain ⟨hp6, -⟩ := candidateAt_found_dest hval
  have hplen : p < d.length := by omega
  unfold refFind
  have hrange : List.range d.length
      = List.range (p + 1) ++ (List.range (d.length - (p + 1))).map (p + 1 + ·) := by
    rw [← List.range_add]
    congr 1
    omega
  rw [hrange, List.foldl_append]
  have hfirst : (List.range (p + 1)).foldl (refStep d sp) none = some h := by
    rw [List.range_succ, List.foldl_append, List.foldl_cons, List.foldl_nil]
    unfold refStep
    rw [if_pos hsp, hval]
  rw [hfirst]
  have hstepskip : ∀ (acc : Option PageHeader) (q : Nat), p < q → q < d.length →
      refStep d sp acc q = acc := by
    intro acc q hq1 hq2
    unfold refStep
    by_cases hq : sp ≤ q
    · rw [if_pos hq, hmax q hq1 hq2]
    · rw [if_neg hq]
  have htail : ∀ (l : List Nat) (acc : Option PageHeader),
      (∀ q ∈ l, p < q ∧ q < d.length) → l.foldl (refStep d sp) acc = acc := by
    intro l
    induction l with
    | nil =>
      intro acc hq
      rfl
    | cons a l ih =>
      intro acc hq
      have hm := hq a (List.mem_cons_self a l)
      rw [List.foldl_cons, hstepskip acc a hm.1 hm.2]
      exact ih acc (fun q hmem => hq q (List.mem_cons_of_mem a hmem))
  rw [htail ((List.range (d.length - (p + 1))).map (p + 1 + ·)) (some h) (by
    intro q hmem
    rw [List.mem_map] at hmem
    obtain ⟨j, hj, rfl⟩ := hmem
    rw [List.mem_range] at hj
    exact ⟨by omega, by omega⟩)]

/-- C8 (amended, theorem): on an error-free stream in which some offset
`p ≥ max(start_pos, 2)` holds a valid page and `p` is the greatest valid
offset, the implemented backward-chunked `find_last_page` and the reference
strategy of a single forward scan that always remembers the last valid page
return the same header.  (Without such a page the contracts can differ: the
implementation may diverge, or its forward fallback may succeed with an
unvalidated header while the reference fails.) -/
theorem c8_amended (d : List Nat) (sp p : Nat) (h : PageHeader)
    (hval : candidateAt d [] d.length p = some (.found h))
    (hmax : ∀ q, p < q → q < d.length → candidateAt d [] d.length q = none)
    (hsp : sp ≤ p) (h2 : 2 ≤ p) :
    refFind d sp = .ok h
    ∧ find_last_page (d.length + 2) ⟨d, [], sp⟩ = .ok h := by
  refine ⟨refFind_of_greatest d sp p h hval hmax hsp, ?_⟩
  obtain ⟨hp6, -⟩ := candidateAt_found_dest hval
  exact find_eq_of_back_accepted ⟨d, [], sp⟩ (d.length + 2) h
    (backLoop_accepts d sp d.length p h hval hmax hsp h2 (d.length + 2) d.length
      (by omega) (le_refl _) (by omega))

/-- C8 (witness): an eleven-byte stream with a checksum-valid page at offset
2 followed by a byte of trailing garbage; both the reference scan and the
implementation return that page's header. -/
theorem c8_witness :
    refFind [0, 0, 79, 103, 103, 83, 2, 7, 3, 4, 0] 0 = .ok ⟨2, 7⟩
    ∧ find_last_page 13 ⟨[0, 0, 79, 103, 103, 83, 2, 7, 3, 4, 0], [], 0⟩ = .ok ⟨2, 7⟩ :=
  c8_amended [0, 0, 79, 103, 103, 83, 2, 7, 3, 4, 0] 0 2 ⟨2, 7⟩
    (by decide)
    (by
      intro q h1 h2
      have h2' : q < 11 := by simpa using h2
      interval_cases q <;> decide)
    (by decide) (by decide)

end Lofty
